import Mathlib

/-!
Shallow embedding of the temperature/humidity logger's retention store
(src/src/main.cpp): record codec, append log, retention compactor,
query engine, and the sampling/prune orchestration guards.

Modelling conventions:
* A log line is a `List Char`; the log file is a `List Line` of line
  contents, exactly as split by `readStringUntil('\n')` (the terminating
  newline is consumed by the reader; `println` re-adds "\r\n", and every
  reader trims the line before use, so the carriage return is invisible).
* Machine integers (`time_t`, `long`, `int`) are modelled by `Int`;
  no claim exercises overflow.  `millis()` arithmetic on `uint32_t` is
  modelled explicitly modulo `2 ^ 32`.
* `float` values are modelled by `ℚ`.  `printf "%.2f"` rounds the value
  to two decimals and prints it in fixed point; this is modelled by
  rounding to an integer count of hundredths (`rnd2`) and printing that
  fixed-point number (`f2`).  The model uses round-half-up where the C
  library rounds the exact binary double; the two agree on every value
  that is not a tie at the third decimal, and all claims about exact
  round-trips concern values with an exact two-decimal representation,
  where there is no tie.  (`printf` would write "-0.00" for a negative
  value rounding to zero; the model writes "0.00".  Both decode to 0,
  and no claim distinguishes the two texts.)
* `String::toInt` (atol) and `String::toFloat` (atof) are modelled by
  best-effort parsers that skip leading whitespace, accept an optional
  sign and then digits (and for atof an optional fractional part), and
  return 0 when nothing parses, as the C library functions do on the
  inputs that arise here (no claim exercises exponent notation).
* The LittleFS file handles always open successfully in the model; the
  file-absent degradation paths (404 / empty array) are noted where the
  corresponding handler models them.
-/

namespace AhtLog

/-- One log line, as a list of characters (without its trailing newline). -/
abbrev Line := List Char

/-- The log file, as the list of its lines in stored order. -/
abbrev Log := List Line

/-- Character class used by `isspace` for `String::trim` (and the leading
whitespace skip of atol/atof). -/
def isWS (c : Char) : Bool :=
  c == ' ' || c == '\t' || c == '\n' || c == '\x0b' || c == '\x0c' || c == '\r'

/-- Decimal digit test used by the atol/atof models. -/
def isDigitC (c : Char) : Bool :=
  decide ('0' ≤ c ∧ c ≤ '9')

/-- Arduino `String::trim()`: remove leading and trailing whitespace. -/
def trimLine (l : Line) : Line :=
  ((l.dropWhile isWS).reverse.dropWhile isWS).reverse

/-- Index (from the start of the searched suffix) of the first occurrence
of a character, used to model `String::indexOf`. -/
def idxOfAux (c : Char) : Line → Option Nat
  | [] => none
  | x :: xs => if x = c then some 0 else (idxOfAux c xs).map (· + 1)

/-- Arduino `String::indexOf(ch, fromIndex)`: first index of `c` at or
after `start`, or -1 when absent. -/
def idxOfFrom (l : Line) (c : Char) (start : Nat) : Int :=
  match idxOfAux c (l.drop start) with
  | none => -1
  | some i => ((start + i : Nat) : Int)

/-- Arduino `String::substring(from, to)` (half-open) at the `Int` indices
the handlers compute; all call sites guard `0 < from ≤ to`. -/
def subIC (l : Line) (a b : Int) : Line :=
  (l.drop a.toNat).take (b - a).toNat

/-- Numeric value of a digit character. -/
def digitVal (c : Char) : Nat := c.toNat - 48

/-- Value of a string of decimal digits (most significant first). -/
def digitsVal (l : Line) : Nat :=
  l.foldl (fun a c => a * 10 + digitVal c) 0

/-- The `long atol(const char *)` model behind `String::toInt`: skip
leading whitespace, optional sign, then the maximal digit prefix; 0 when
no digits are present. -/
def atolI (l : Line) : Int :=
  match l.dropWhile isWS with
  | [] => 0
  | c :: r =>
    if c = '-' then -(digitsVal (r.takeWhile isDigitC) : Int)
    else if c = '+' then (digitsVal (r.takeWhile isDigitC) : Int)
    else (digitsVal ((c :: r).takeWhile isDigitC) : Int)

/-- Unsigned part of the `atof` model: maximal digit prefix, then an
optional '.' followed by a maximal digit prefix as the fractional part. -/
def parsePosQ (l : Line) : ℚ :=
  let ip := l.takeWhile isDigitC
  match l.dropWhile isDigitC with
  | [] => (digitsVal ip : ℚ)
  | c :: r =>
    if c = '.' then
      let fd := r.takeWhile isDigitC
      (digitsVal ip : ℚ) + (digitsVal fd : ℚ) / (10 : ℚ) ^ fd.length
    else (digitsVal ip : ℚ)

/-- The `double atof(const char *)` model behind `String::toFloat`. -/
def atofQ (l : Line) : ℚ :=
  match l.dropWhile isWS with
  | [] => 0
  | c :: r =>
    if c = '-' then -parsePosQ r
    else if c = '+' then parsePosQ r
    else parsePosQ (c :: r)

/-- Decimal digit character (only applied to values below 10). -/
def digitChar (d : Nat) : Char :=
  match d with
  | 0 => '0' | 1 => '1' | 2 => '2' | 3 => '3' | 4 => '4'
  | 5 => '5' | 6 => '6' | 7 => '7' | 8 => '8' | 9 => '9'
  | _ => '*'

/-- Decimal digits of a natural number, as `printf "%lu"` would print it. -/
def natToChars (n : Nat) : Line :=
  if _h : n < 10 then [digitChar n]
  else natToChars (n / 10) ++ [digitChar (n % 10)]
  termination_by n
  decreasing_by exact Nat.div_lt_self (by omega) (by omega)

/-- Decimal text of an integer, as `printf "%ld"` prints the timestamp. -/
def intToChars (i : Int) : Line :=
  if i < 0 then '-' :: natToChars (-i).toNat else natToChars i.toNat

/-- Fixed-point text of a non-negative count of hundredths:
integer part, '.', and exactly two fractional digits. -/
def f2n (n : Nat) : Line :=
  natToChars (n / 100) ++ '.' :: [digitChar (n % 100 / 10), digitChar (n % 100 % 10)]

/-- Fixed-point text of a signed count of hundredths, as `printf "%.2f"`
prints a value equal to `x / 100`. -/
def f2 (x : Int) : Line :=
  if x < 0 then '-' :: f2n x.natAbs else f2n x.natAbs

/-- Hundredths of a rational, rounded to the nearest integer: the value
`printf "%.2f"` commits to the log for a channel reading `q`. -/
def rnd2 (q : ℚ) : Int := round (q * 100)

/-- The text of one record line, `"<epoch>,<temp 2dp>,<hum 2dp>"`, with the
two channels already in hundredths — the body `appendReading` writes with
`f.printf("%ld,%.2f,%.2f\n", (long)ts, tempC, hum)` before the newline. -/
def encodeCenti (ts ti hi : Int) : Line :=
  intToChars ts ++ ',' :: (f2 ti ++ ',' :: f2 hi)

/-- The decoded projection of one record: `{"ts", "tempC", "humidity"}`. -/
structure Reading where
  ts : Int
  tempC : ℚ
  humidity : ℚ
deriving DecidableEq

/-- The `appendReading(ts, tempC, hum)` writer: append one encoded line
(terminated by the newline the printf format ends with). -/
def appendReading (ts : Int) (t h : ℚ) (log : Log) : Log :=
  log ++ [encodeCenti ts (rnd2 t) (rnd2 h)]

/-- The field split shared by `handleLatest` and `sendHistorySince`,
applied to an already-trimmed line: reject when shorter than 5 chars or
when the first comma is not at a positive index or no second comma
follows it; otherwise parse the three fields best-effort. -/
def decodeTrimmed (l : Line) : Option Reading :=
  if l.length < 5 then none
  else
    let c1 := idxOfFrom l ',' 0
    let c2 := idxOfFrom l ',' (c1 + 1).toNat
    if c1 ≤ 0 ∨ c2 ≤ c1 then none
    else some ⟨atolI (subIC l 0 c1), atofQ (subIC l (c1 + 1) c2), atofQ (l.drop (c2 + 1).toNat)⟩

/-- Decoding one stored line the way the query handlers read it:
trim, then split the fields. -/
def decodeLine (line : Line) : Option Reading :=
  decodeTrimmed (trimLine line)

/-- The per-line body of the `pruneOlderThan` rewrite loop: trim, skip
lines shorter than 5 chars or without a comma at a positive index, parse
the leading field with `toInt`, and copy the trimmed line forward when
its timestamp is at or above the cutoff. -/
def pruneLine (cutoffTs : Int) (line : Line) : Option Line :=
  let l := trimLine line
  if l.length < 5 then none
  else
    let c1 := idxOfFrom l ',' 0
    if c1 ≤ 0 then none
    else
      let ts := atolI (subIC l 0 c1)
      if cutoffTs ≤ ts then some l else none

/-- `pruneOlderThan(cutoffTs)`: rewrite the whole log, copying forward
exactly the lines its loop keeps, then swap the temp file into place
(the model returns the post-swap log contents). -/
def pruneOlderThan (cutoffTs : Int) (log : Log) : Log :=
  log.filterMap (pruneLine cutoffTs)

/-- The result of `handleLatest`: 404 no_data, 500 bad_log_format, or a
200 with the decoded record. -/
inductive LatestResult where
  | noData
  | badFormat
  | ok (r : Reading)
deriving DecidableEq

/-- The loop body of the `handleLatest` scan: trim the line read and
remember it when its length exceeds 5. -/
def latestStep (acc line : Line) : Line :=
  let l := trimLine line
  if 5 < l.length then l else acc

/-- The scan loop of `handleLatest`: remember the last trimmed line whose
length exceeds 5. `lastLine` starts as the empty string. -/
def latestFold (log : Log) : Line :=
  log.foldl latestStep []

/-- `handleLatest`: scan for the last long-enough line, 404 when none (or
when the file cannot be opened, which the model folds into the empty
log), 500 when that line fails the comma checks, else decode it. -/
def handleLatest (log : Log) : LatestResult :=
  let lastLine := latestFold log
  if lastLine.length < 5 then .noData
  else
    let c1 := idxOfFrom lastLine ',' 0
    let c2 := idxOfFrom lastLine ',' (c1 + 1).toNat
    if c1 ≤ 0 ∨ c2 ≤ c1 then .badFormat
    else .ok ⟨atolI (subIC lastLine 0 c1), atofQ (subIC lastLine (c1 + 1) c2),
              atofQ (lastLine.drop (c2 + 1).toNat)⟩

/-- The per-line body of the `sendHistorySince` streaming loop: trim,
apply the same structural checks as the shared field split, skip records
whose parsed timestamp is below the bound, and emit the projection. -/
def histEntry (sinceTs : Int) (line : Line) : Option Reading :=
  let l := trimLine line
  if l.length < 5 then none
  else
    let c1 := idxOfFrom l ',' 0
    let c2 := idxOfFrom l ',' (c1 + 1).toNat
    if c1 ≤ 0 ∨ c2 ≤ c1 then none
    else
      let ts := atolI (subIC l 0 c1)
      if ts < sinceTs then none
      else some ⟨ts, atofQ (subIC l (c1 + 1) c2), atofQ (l.drop (c2 + 1).toNat)⟩

/-- `sendHistorySince(sinceTs)`: the JSON array streamed for a history
query, as the list of emitted records in stored order (an unopenable
file streams the empty array, which the model folds into the empty log). -/
def sendHistorySince (sinceTs : Int) (log : Log) : List Reading :=
  log.filterMap (histEntry sinceTs)

/-- Retention window: `KEEP_SECONDS = 7 * 24 * 3600`. -/
def KEEP_SECONDS : Int := 7 * 24 * 3600

/-- Prune cadence: `PRUNE_EVERY_MS = 6 * 60 * 60 * 1000`. -/
def PRUNE_EVERY_MS : Nat := 6 * 60 * 60 * 1000

/-- Cutoff resolution of `handleHistory`, with the two query parameters
already run through `String::toInt` (absent parameter = `none`) and the
current `time(nullptr)` value passed in. -/
def resolveSince (sinceArg daysArg : Option Int) (now : Int) : Int :=
  match sinceArg with
  | some s => s
  | none =>
    match daysArg with
    | some d0 =>
      let d := if d0 ≤ 0 then 7 else d0
      if 1700000000 < now then now - d * 24 * 3600 else 0
    | none => if 1700000000 < now then now - KEEP_SECONDS else 0

/-- Modelled from the spec wording of the default-cutoff rule (for the
refinement claim about `handleHistory`): an explicit absolute timestamp
takes precedence; else the lookback is the (floored-at-7) day count or
the retention window; a not-yet-valid current time resolves the relative
cases to epoch 0. -/
def resolveSinceSpec (sinceArg daysArg : Option Int) (now : Int) : Int :=
  match sinceArg with
  | some s => s
  | none =>
    let lookback : Int :=
      match daysArg with
      | some d0 => (if d0 ≤ 0 then 7 else d0) * 24 * 3600
      | none => KEEP_SECONDS
    if 1700000000 < now then now - lookback else 0

/-- `uint32_t` subtraction `a - b` as `millis()` timer arithmetic does it. -/
def usub32 (a b : Nat) : Nat :=
  (a + 2 ^ 32 - b % 2 ^ 32) % 2 ^ 32

/-- The mutable state `maybePrune` touches: the `lastPruneMs` timer and
the log file. -/
structure PruneState where
  lastPruneMs : Nat
  log : Log
deriving DecidableEq

/-- `maybePrune()` at a tick where `millis() = ms` and `time(nullptr) =
now`: return unless a prune interval elapsed, then restamp the timer,
and only when the clock is valid run the compactor at `now -
KEEP_SECONDS`. -/
def maybePrune (ms : Nat) (now : Int) (st : PruneState) : PruneState :=
  if usub32 ms st.lastPruneMs < PRUNE_EVERY_MS then st
  else
    let st' : PruneState := ⟨ms, st.log⟩
    if now ≤ 1700000000 then st'
    else ⟨ms, pruneOlderThan (now - KEEP_SECONDS) st.log⟩

/-- The startup prune in `setup()`: after the NTP wait, read the clock
once and compact at `now - KEEP_SECONDS` only when the clock is valid. -/
def setupPrune (now : Int) (log : Log) : Log :=
  if 1700000000 < now then pruneOlderThan (now - KEEP_SECONDS) log else log

/-- A `float` returned by the AHT sensor driver: NaN or a numeric value. -/
inductive SensorVal where
  | nan
  | val (q : ℚ)
deriving DecidableEq

/-- The sampling branch of `loop()`: discard the sample when either
channel is NaN or out of range, otherwise read the clock and append only
when the time is valid. -/
def sampleStep (tv hv : SensorVal) (now : Int) (log : Log) : Log :=
  match tv, hv with
  | .val t, .val h =>
    if t < -40 ∨ 125 < t ∨ h < 0 ∨ 100 < h then log
    else if 1700000000 < now then appendReading now t h log
    else log
  | _, _ => log

/-- N sequential `appendReading` calls, in order, starting from a log. -/
def appendAll (rs : List Reading) (log : Log) : Log :=
  rs.foldl (fun g r => appendReading r.ts r.tempC r.humidity g) log

/-! ### Character classes -/

lemma ws_cases (c : Char) (h : isWS c = true) :
    c = ' ' ∨ c = '\t' ∨ c = '\n' ∨ c = '\x0b' ∨ c = '\x0c' ∨ c = '\r' := by
  have h' := h
  simp only [isWS, Bool.or_eq_true, beq_iff_eq] at h'
  tauto

lemma digit_not_ws (c : Char) (h : isDigitC c = true) : isWS c = false := by
  cases hw : isWS c with
  | false => rfl
  | true =>
    exfalso
    rcases ws_cases c hw with rfl | rfl | rfl | rfl | rfl | rfl <;> exact absurd h (by decide)

lemma digit_ne (c : Char) (h : isDigitC c = true) (d : Char) (hd : isDigitC d = false) :
    c ≠ d := by
  intro he
  rw [he, hd] at h
  cases h

/-! ### dropWhile / takeWhile helpers -/

lemma dropWhile_eq_self_of_forall (p : Char → Bool) (l : Line)
    (h : ∀ c ∈ l, p c = false) : l.dropWhile p = l := by
  cases l with
  | nil => rfl
  | cons x xs => rw [List.dropWhile_cons, if_neg (by simp [h x (by simp)])]

lemma takeWhile_eq_self_of_forall (p : Char → Bool) (l : Line)
    (h : ∀ c ∈ l, p c = true) : l.takeWhile p = l := by
  induction l with
  | nil => rfl
  | cons x xs ih =>
    rw [List.takeWhile_cons, if_pos (h x (by simp)), ih (fun c hc => h c (by simp [hc]))]

lemma dropWhile_dropWhile (p : Char → Bool) (l : Line) :
    (l.dropWhile p).dropWhile p = l.dropWhile p := by
  induction l with
  | nil => rfl
  | cons x xs ih =>
    cases hx : p x with
    | false =>
      rw [List.dropWhile_cons, if_neg (by simp [hx]), List.dropWhile_cons,
        if_neg (by simp [hx])]
    | true => rw [List.dropWhile_cons, if_pos hx]; exact ih

lemma head?_dropWhile_false (p : Char → Bool) (l : Line) :
    ∀ a, (l.dropWhile p).head? = some a → p a = false := by
  induction l with
  | nil => intro a h; cases h
  | cons x xs ih =>
    intro a h
    cases hx : p x with
    | true => rw [List.dropWhile_cons, if_pos hx] at h; exact ih a h
    | false =>
      rw [List.dropWhile_cons, if_neg (by simp [hx])] at h
      cases h
      exact hx

lemma dropWhile_eq_self_of_head (p : Char → Bool) (l : Line)
    (h : ∀ a, l.head? = some a → p a = false) : l.dropWhile p = l := by
  cases l with
  | nil => rfl
  | cons x xs => rw [List.dropWhile_cons, if_neg (by simp [h x rfl])]

lemma dropWhile_sfx (p : Char → Bool) (l : Line) : ∃ t, t ++ l.dropWhile p = l := by
  induction l with
  | nil => exact ⟨[], rfl⟩
  | cons x xs ih =>
    cases hx : p x with
    | false => exact ⟨[], by simp [List.dropWhile_cons, hx]⟩
    | true =>
      obtain ⟨t, ht⟩ := ih
      exact ⟨x :: t, by simp [List.dropWhile_cons, hx, ht]⟩

lemma getLast?_append_right (t s : Line) (hs : s ≠ []) :
    (t ++ s).getLast? = s.getLast? := by
  obtain ⟨a, u, hu⟩ : ∃ a u, s.reverse = a :: u := by
    cases hs' : s.reverse with
    | nil => exact absurd (List.reverse_eq_nil_iff.mp hs') hs
    | cons a u => exact ⟨a, u, rfl⟩
  rw [← List.head?_reverse, ← List.head?_reverse, List.reverse_append, hu]
  rfl

/-! ### trim -/

lemma trimLine_eq_self (l : Line) (h : ∀ c ∈ l, isWS c = false) : trimLine l = l := by
  unfold trimLine
  rw [dropWhile_eq_self_of_forall _ _ h,
    dropWhile_eq_self_of_forall _ _ (fun c hc => h c (List.mem_reverse.mp hc)),
    List.reverse_reverse]

lemma trimLine_idem (l : Line) : trimLine (trimLine l) = trimLine l := by
  unfold trimLine
  set u := l.dropWhile isWS with hu
  set v := u.reverse.dropWhile isWS with hv
  have h1 : v.reverse.dropWhile isWS = v.reverse := by
    apply dropWhile_eq_self_of_head
    intro a ha
    by_cases hv0 : v = []
    · rw [hv0] at ha; cases ha
    · obtain ⟨t, ht⟩ := dropWhile_sfx isWS u.reverse
      rw [← hv] at ht
      have e1 : v.getLast? = u.reverse.getLast? := by
        rw [← ht]; exact (getLast?_append_right t v hv0).symm
      have e2 : u.reverse.getLast? = u.head? := List.getLast?_reverse u
      have e3 : u.head? = some a := by
        rw [List.head?_reverse] at ha
        rw [← e2, ← e1]; exact ha
      rw [hu] at e3
      exact head?_dropWhile_false isWS l a e3
  rw [h1, List.reverse_reverse, hv, dropWhile_dropWhile]

/-! ### indexOf -/

lemma idxOfAux_append (c : Char) (xs r : Line) (h : ∀ a ∈ xs, a ≠ c) :
    idxOfAux c (xs ++ c :: r) = some xs.length := by
  induction xs with
  | nil => simp [idxOfAux]
  | cons x t ih =>
    rw [List.cons_append]
    simp only [idxOfAux]
    rw [if_neg (h x (by simp)), ih (fun a ha => h a (by simp [ha]))]
    simp

/-! ### Digit printing and parsing round-trips -/

lemma isDigitC_digitChar (d : Nat) (h : d < 10) : isDigitC (digitChar d) = true := by
  interval_cases d <;> decide

lemma digitVal_digitChar (d : Nat) (h : d < 10) : digitVal (digitChar d) = d := by
  interval_cases d <;> decide

lemma natToChars_ne_nil (n : Nat) : natToChars n ≠ [] := by
  rw [natToChars]; split <;> simp

lemma length_natToChars_pos (n : Nat) : 1 ≤ (natToChars n).length := by
  rw [natToChars]; split <;> simp

lemma mem_natToChars (n : Nat) : ∀ c ∈ natToChars n, isDigitC c = true := by
  induction n using Nat.strong_induction_on with
  | _ n ih =>
    rw [natToChars]
    split
    · rename_i h
      intro c hc
      rcases List.mem_singleton.mp hc with rfl
      exact isDigitC_digitChar n h
    · rename_i h
      intro c hc
      rcases List.mem_append.mp hc with h1 | h1
      · exact ih (n / 10) (Nat.div_lt_self (by omega) (by omega)) c h1
      · rcases List.mem_singleton.mp h1 with rfl
        exact isDigitC_digitChar _ (Nat.mod_lt _ (by omega))

lemma digitsVal_append (l : Line) (c : Char) :
    digitsVal (l ++ [c]) = 10 * digitsVal l + digitVal c := by
  unfold digitsVal
  rw [List.foldl_append]
  simp [Nat.mul_comm]

lemma digitsVal_natToChars (n : Nat) : digitsVal (natToChars n) = n := by
  induction n using Nat.strong_induction_on with
  | _ n ih =>
    rw [natToChars]
    split
    · rename_i h
      simp [digitsVal, digitVal_digitChar n h]
    · rename_i h
      rw [digitsVal_append, ih (n / 10) (Nat.div_lt_self (by omega) (by omega)),
        digitVal_digitChar (n % 10) (Nat.mod_lt _ (by omega))]
      omega

lemma takeWhile_append_stop (p : Char → Bool) (l r : Line) (x : Char)
    (hl : ∀ c ∈ l, p c = true) (hx : p x = false) :
    (l ++ x :: r).takeWhile p = l ∧ (l ++ x :: r).dropWhile p = x :: r := by
  induction l with
  | nil =>
    refine ⟨?_, ?_⟩
    · rw [List.nil_append, List.takeWhile_cons, if_neg (by simp [hx])]
    · rw [List.nil_append, List.dropWhile_cons, if_neg (by simp [hx])]
  | cons a t ih =>
    obtain ⟨ih1, ih2⟩ := ih (fun c hc => hl c (by simp [hc]))
    refine ⟨?_, ?_⟩
    · rw [List.cons_append, List.takeWhile_cons, if_pos (hl a (by simp)), ih1]
    · rw [List.cons_append, List.dropWhile_cons, if_pos (hl a (by simp)), ih2]

/-! ### atol round-trips -/

lemma atolI_digits (l : Line) (hne : l ≠ []) (hd : ∀ c ∈ l, isDigitC c = true) :
    atolI l = (digitsVal l : Int) := by
  obtain ⟨c, r, rfl⟩ := List.exists_cons_of_ne_nil hne
  have h1 : isDigitC c = true := hd c (by simp)
  have hdw : (c :: r).dropWhile isWS = c :: r :=
    dropWhile_eq_self_of_forall _ _ (fun x hx => digit_not_ws x (hd x hx))
  simp only [atolI, hdw]
  rw [if_neg (digit_ne c h1 '-' (by decide)), if_neg (digit_ne c h1 '+' (by decide)),
    takeWhile_eq_self_of_forall _ _ hd]

lemma atolI_neg_digits (l : Line) (hd : ∀ c ∈ l, isDigitC c = true) :
    atolI ('-' :: l) = -(digitsVal l : Int) := by
  have hdw : ('-' :: l).dropWhile isWS = '-' :: l :=
    dropWhile_eq_self_of_forall _ _ (by
      intro x hx
      rcases List.mem_cons.mp hx with rfl | hx
      · decide
      · exact digit_not_ws x (hd x hx))
  simp only [atolI, hdw, if_true]
  rw [takeWhile_eq_self_of_forall _ _ hd]

lemma atolI_intToChars (ts : Int) : atolI (intToChars ts) = ts := by
  unfold intToChars
  split
  · rename_i h
    rw [atolI_neg_digits _ (mem_natToChars _), digitsVal_natToChars]
    omega
  · rename_i h
    rw [atolI_digits _ (natToChars_ne_nil _) (mem_natToChars _), digitsVal_natToChars]
    omega

/-! ### The two-decimal fixed-point fields -/

lemma mem_f2n (n : Nat) : ∀ c ∈ f2n n, isDigitC c = true ∨ c = '.' := by
  intro c hc
  unfold f2n at hc
  rcases List.mem_append.mp hc with h1 | h1
  · exact Or.inl (mem_natToChars _ c h1)
  · rcases List.mem_cons.mp h1 with rfl | h2
    · exact Or.inr rfl
    · rcases List.mem_cons.mp h2 with rfl | h3
      · exact Or.inl (isDigitC_digitChar _ (by omega))
      · rcases List.mem_singleton.mp h3 with rfl
        exact Or.inl (isDigitC_digitChar _ (by omega))

lemma mem_f2 (x : Int) : ∀ c ∈ f2 x, isDigitC c = true ∨ c = '.' ∨ c = '-' := by
  intro c hc
  unfold f2 at hc
  split at hc
  · rcases List.mem_cons.mp hc with rfl | h1
    · exact Or.inr (Or.inr rfl)
    · rcases mem_f2n _ c h1 with h | h
      · exact Or.inl h
      · exact Or.inr (Or.inl h)
  · rcases mem_f2n _ c hc with h | h
    · exact Or.inl h
    · exact Or.inr (Or.inl h)

lemma not_ws_f2 (x : Int) : ∀ c ∈ f2 x, isWS c = false := by
  intro c hc
  rcases mem_f2 x c hc with h | rfl | rfl
  · exact digit_not_ws c h
  · decide
  · decide

lemma ne_comma_f2 (x : Int) : ∀ c ∈ f2 x, c ≠ ',' := by
  intro c hc
  rcases mem_f2 x c hc with h | rfl | rfl
  · exact digit_ne c h ',' (by decide)
  · decide
  · decide

lemma mem_intToChars (i : Int) : ∀ c ∈ intToChars i, isDigitC c = true ∨ c = '-' := by
  intro c hc
  unfold intToChars at hc
  split at hc
  · rcases List.mem_cons.mp hc with rfl | h1
    · exact Or.inr rfl
    · exact Or.inl (mem_natToChars _ c h1)
  · exact Or.inl (mem_natToChars _ c hc)

lemma not_ws_intToChars (i : Int) : ∀ c ∈ intToChars i, isWS c = false := by
  intro c hc
  rcases mem_intToChars i c hc with h | rfl
  · exact digit_not_ws c h
  · decide

lemma ne_comma_intToChars (i : Int) : ∀ c ∈ intToChars i, c ≠ ',' := by
  intro c hc
  rcases mem_intToChars i c hc with h | rfl
  · exact digit_ne c h ',' (by decide)
  · decide

lemma length_f2n (n : Nat) : 4 ≤ (f2n n).length := by
  unfold f2n
  rw [List.length_append]
  have := length_natToChars_pos (n / 100)
  simp only [List.length_cons, List.length_singleton]
  omega

lemma length_f2 (x : Int) : 4 ≤ (f2 x).length := by
  unfold f2
  split
  · simp only [List.length_cons]
    have := length_f2n x.natAbs
    omega
  · exact length_f2n _

lemma length_intToChars_pos (i : Int) : 1 ≤ (intToChars i).length := by
  unfold intToChars
  split
  · simp
  · exact length_natToChars_pos _

/-! ### atof round-trips -/

lemma parsePosQ_f2n (n : Nat) : parsePosQ (f2n n) = (n : ℚ) / 100 := by
  obtain ⟨htw, hdw⟩ := takeWhile_append_stop isDigitC (natToChars (n / 100))
    [digitChar (n % 100 / 10), digitChar (n % 100 % 10)] '.'
    (mem_natToChars _) (by decide)
  have hds : [digitChar (n % 100 / 10), digitChar (n % 100 % 10)].takeWhile isDigitC
      = [digitChar (n % 100 / 10), digitChar (n % 100 % 10)] :=
    takeWhile_eq_self_of_forall _ _ (by
      intro c hc
      rcases List.mem_cons.mp hc with rfl | hc
      · exact isDigitC_digitChar _ (by omega)
      · rcases List.mem_singleton.mp hc with rfl
        exact isDigitC_digitChar _ (by omega))
  have hdv : digitsVal [digitChar (n % 100 / 10), digitChar (n % 100 % 10)] = n % 100 := by
    simp only [digitsVal, List.foldl_cons, List.foldl_nil, Nat.zero_mul, Nat.zero_add,
      digitVal_digitChar _ (show n % 100 / 10 < 10 by omega),
      digitVal_digitChar _ (show n % 100 % 10 < 10 by omega)]
    omega
  unfold f2n at *
  simp only [parsePosQ, hdw, if_true]
  rw [hds, htw, digitsVal_natToChars, hdv]
  simp only [List.length_cons, List.length_nil]
  have key : n / 100 * 100 + n % 100 = n := by omega
  have h100 : ((10 : ℚ) ^ (0 + 1 + 1)) = 100 := by norm_num
  rw [h100]
  field_simp
  exact_mod_cast key

lemma atofQ_f2 (x : Int) : atofQ (f2 x) = (x : ℚ) / 100 := by
  unfold f2
  split
  · rename_i h
    have hdw : ('-' :: f2n x.natAbs).dropWhile isWS = '-' :: f2n x.natAbs :=
      dropWhile_eq_self_of_forall _ _ (by
        intro c hc
        rcases List.mem_cons.mp hc with rfl | hc
        · decide
        · rcases mem_f2n _ c hc with h1 | rfl
          · exact digit_not_ws c h1
          · decide)
    simp only [atofQ, hdw, if_true]
    rw [parsePosQ_f2n]
    have h1 : ((x.natAbs : ℤ)) = -x := by omega
    have hcast : ((x.natAbs : ℕ) : ℚ) = -(x : ℚ) := by
      calc ((x.natAbs : ℕ) : ℚ) = (((x.natAbs : ℤ)) : ℚ) := (Int.cast_natCast x.natAbs).symm
        _ = ((-x : ℤ) : ℚ) := by rw [h1]
        _ = -(x : ℚ) := by rw [Int.cast_neg]
    rw [hcast]
    ring
  · rename_i h
    obtain ⟨c, r, hc⟩ := List.exists_cons_of_ne_nil
      (show f2n x.natAbs ≠ [] by
        intro hnil
        have := length_f2n x.natAbs
        rw [hnil] at this
        simp at this)
    have hcd : isDigitC c = true ∨ c = '.' := mem_f2n _ c (by rw [hc]; simp)
    have hcd' : c ≠ '-' ∧ c ≠ '+' := by
      rcases hcd with h1 | rfl
      · exact ⟨digit_ne c h1 '-' (by decide), digit_ne c h1 '+' (by decide)⟩
      · exact ⟨by decide, by decide⟩
    have hdw : (f2n x.natAbs).dropWhile isWS = f2n x.natAbs :=
      dropWhile_eq_self_of_forall _ _ (by
        intro a ha
        rcases mem_f2n _ a ha with h1 | rfl
        · exact digit_not_ws a h1
        · decide)
    rw [hc] at hdw
    rw [hc]
    simp only [atofQ, hdw]
    rw [if_neg hcd'.1, if_neg hcd'.2, ← hc, parsePosQ_f2n]
    have h1 : ((x.natAbs : ℤ)) = x := by omega
    have hcast : ((x.natAbs : ℕ) : ℚ) = (x : ℚ) := by
      calc ((x.natAbs : ℕ) : ℚ) = (((x.natAbs : ℤ)) : ℚ) := (Int.cast_natCast x.natAbs).symm
        _ = (x : ℚ) := by rw [h1]
    rw [hcast]

/-! ### Structure of an encoded record line -/

lemma not_ws_encodeCenti (ts ti hi : Int) : ∀ c ∈ encodeCenti ts ti hi, isWS c = false := by
  intro c hc
  unfold encodeCenti at hc
  rcases List.mem_append.mp hc with h1 | h1
  · exact not_ws_intToChars ts c h1
  · rcases List.mem_cons.mp h1 with rfl | h2
    · decide
    · rcases List.mem_append.mp h2 with h3 | h3
      · exact not_ws_f2 ti c h3
      · rcases List.mem_cons.mp h3 with rfl | h4
        · decide
        · exact not_ws_f2 hi c h4

lemma trimLine_encodeCenti (ts ti hi : Int) :
    trimLine (encodeCenti ts ti hi) = encodeCenti ts ti hi :=
  trimLine_eq_self _ (not_ws_encodeCenti ts ti hi)

lemma length_encodeCenti (ts ti hi : Int) : 11 ≤ (encodeCenti ts ti hi).length := by
  unfold encodeCenti
  simp only [List.length_append, List.length_cons]
  have h1 := length_intToChars_pos ts
  have h2 := length_f2 ti
  have h3 := length_f2 hi
  omega

lemma idxOfFrom_encodeCenti_zero (ts ti hi : Int) :
    idxOfFrom (encodeCenti ts ti hi) ',' 0 = ((intToChars ts).length : Int) := by
  unfold idxOfFrom encodeCenti
  rw [List.drop_zero, idxOfAux_append ',' (intToChars ts) (f2 ti ++ ',' :: f2 hi)
    (ne_comma_intToChars ts)]
  simp

lemma drop_encodeCenti_mid (ts ti hi : Int) :
    (encodeCenti ts ti hi).drop ((intToChars ts).length + 1) = f2 ti ++ ',' :: f2 hi := by
  unfold encodeCenti
  rw [show intToChars ts ++ ',' :: (f2 ti ++ ',' :: f2 hi)
      = (intToChars ts ++ [',']) ++ (f2 ti ++ ',' :: f2 hi) by simp]
  rw [show (intToChars ts).length + 1 = (intToChars ts ++ [',']).length by simp]
  exact List.drop_left _ _

lemma idxOfFrom_encodeCenti_snd (ts ti hi : Int) :
    idxOfFrom (encodeCenti ts ti hi) ',' ((intToChars ts).length + 1)
      = (((intToChars ts).length + 1 + (f2 ti).length : Nat) : Int) := by
  unfold idxOfFrom
  rw [drop_encodeCenti_mid, idxOfAux_append ',' (f2 ti) (f2 hi) (ne_comma_f2 ti)]

lemma take_encodeCenti_ts (ts ti hi : Int) :
    (encodeCenti ts ti hi).take (intToChars ts).length = intToChars ts := by
  unfold encodeCenti
  exact List.take_left _ _

lemma drop_encodeCenti_hum (ts ti hi : Int) :
    (encodeCenti ts ti hi).drop ((intToChars ts).length + 1 + (f2 ti).length + 1) = f2 hi := by
  unfold encodeCenti
  rw [show intToChars ts ++ ',' :: (f2 ti ++ ',' :: f2 hi)
      = (intToChars ts ++ ',' :: (f2 ti ++ [','])) ++ f2 hi by simp]
  rw [show (intToChars ts).length + 1 + (f2 ti).length + 1
      = (intToChars ts ++ ',' :: (f2 ti ++ [','])).length by simp; omega]
  exact List.drop_left _ _

lemma decodeTrimmed_encodeCenti (ts ti hi : Int) :
    decodeTrimmed (encodeCenti ts ti hi) = some ⟨ts, (ti : ℚ) / 100, (hi : ℚ) / 100⟩ := by
  have hAlen : 1 ≤ (intToChars ts).length := length_intToChars_pos ts
  have hBlen : 4 ≤ (f2 ti).length := length_f2 ti
  have hlen : ¬((encodeCenti ts ti hi).length < 5) := by
    have := length_encodeCenti ts ti hi; omega
  have ht1 : (((intToChars ts).length : Int) + 1).toNat = (intToChars ts).length + 1 := by
    omega
  have hguard : ¬(((intToChars ts).length : Int) ≤ 0 ∨
      ((((intToChars ts).length + 1 + (f2 ti).length : Nat)) : Int) ≤ ((intToChars ts).length : Int)) := by
    push_neg
    constructor
    · exact_mod_cast hAlen
    · push_cast; omega
  have hsub0 : subIC (encodeCenti ts ti hi) 0 ((intToChars ts).length : Int) = intToChars ts := by
    unfold subIC
    rw [show ((0 : Int)).toNat = 0 by rfl, List.drop_zero,
      show (((intToChars ts).length : Int) - 0).toNat = (intToChars ts).length by omega,
      take_encodeCenti_ts]
  have hsub1 : subIC (encodeCenti ts ti hi) (((intToChars ts).length : Int) + 1)
      ((((intToChars ts).length + 1 + (f2 ti).length : Nat)) : Int) = f2 ti := by
    unfold subIC
    rw [ht1, drop_encodeCenti_mid,
      show (((((intToChars ts).length + 1 + (f2 ti).length : Nat)) : Int)
        - (((intToChars ts).length : Int) + 1)).toNat = (f2 ti).length by push_cast; omega,
      List.take_left]
  have hsub2 : (encodeCenti ts ti hi).drop
      ((((((intToChars ts).length + 1 + (f2 ti).length : Nat)) : Int) + 1).toNat) = f2 hi := by
    rw [show ((((((intToChars ts).length + 1 + (f2 ti).length : Nat)) : Int) + 1).toNat)
      = (intToChars ts).length + 1 + (f2 ti).length + 1 by push_cast; omega]
    exact drop_encodeCenti_hum ts ti hi
  unfold decodeTrimmed
  rw [if_neg hlen]
  simp only [idxOfFrom_encodeCenti_zero, ht1, idxOfFrom_encodeCenti_snd]
  rw [if_neg hguard, hsub0, hsub1, hsub2, atolI_intToChars, atofQ_f2, atofQ_f2]

lemma decodeLine_encodeCenti (ts ti hi : Int) :
    decodeLine (encodeCenti ts ti hi) = some ⟨ts, (ti : ℚ) / 100, (hi : ℚ) / 100⟩ := by
  unfold decodeLine
  rw [trimLine_encodeCenti, decodeTrimmed_encodeCenti]

/-! ### Relating the compactor filter to the decoder -/

lemma decodeLine_trimLine (line : Line) : decodeLine (trimLine line) = decodeLine line := by
  unfold decodeLine
  rw [trimLine_idem]

lemma decodeLine_ts_eq (line : Line) (r : Reading) (h : decodeLine line = some r) :
    r.ts = atolI (subIC (trimLine line) 0 (idxOfFrom (trimLine line) ',' 0)) := by
  simp only [decodeLine, decodeTrimmed] at h
  set l := trimLine line
  by_cases h5 : l.length < 5
  · rw [if_pos h5] at h; cases h
  · rw [if_neg h5] at h
    by_cases hg : idxOfFrom l ',' 0 ≤ 0 ∨
        idxOfFrom l ',' ((idxOfFrom l ',' 0) + 1).toNat ≤ idxOfFrom l ',' 0
    · rw [if_pos hg] at h; cases h
    · rw [if_neg hg] at h
      cases h
      rfl

lemma pruneLine_none_ts (cutoff : Int) (line : Line) (hp : pruneLine cutoff line = none) :
    ∀ r, decodeLine line = some r → r.ts < cutoff := by
  intro r hr
  have hts := decodeLine_ts_eq line r hr
  simp only [decodeLine, decodeTrimmed] at hr
  simp only [pruneLine] at hp
  set l := trimLine line
  by_cases h5 : l.length < 5
  · rw [if_pos h5] at hr; cases hr
  · rw [if_neg h5] at hr hp
    by_cases hg1 : idxOfFrom l ',' 0 ≤ 0
    · rw [if_pos (Or.inl hg1)] at hr; cases hr
    · rw [if_neg hg1] at hp
      by_cases hc : cutoff ≤ atolI (subIC l 0 (idxOfFrom l ',' 0))
      · rw [if_pos hc] at hp; cases hp
      · rw [hts]
        exact not_le.mp hc

lemma pruneLine_some (cutoff : Int) (line l' : Line) (hp : pruneLine cutoff line = some l') :
    l' = trimLine line
      ∧ cutoff ≤ atolI (subIC (trimLine line) 0 (idxOfFrom (trimLine line) ',' 0))
      ∧ ¬((trimLine line).length < 5)
      ∧ ¬(idxOfFrom (trimLine line) ',' 0 ≤ 0) := by
  simp only [pruneLine] at hp
  set l := trimLine line
  by_cases h5 : l.length < 5
  · rw [if_pos h5] at hp; cases hp
  · rw [if_neg h5] at hp
    by_cases hg1 : idxOfFrom l ',' 0 ≤ 0
    · rw [if_pos hg1] at hp; cases hp
    · rw [if_neg hg1] at hp
      by_cases hc : cutoff ≤ atolI (subIC l 0 (idxOfFrom l ',' 0))
      · rw [if_pos hc] at hp
        exact ⟨(Option.some.inj hp).symm, hc, h5, hg1⟩
      · rw [if_neg hc] at hp; cases hp

lemma filterMap_records_prune (cutoff : Int) (log : Log) :
    (pruneOlderThan cutoff log).filterMap decodeLine
      = (log.filterMap decodeLine).filter (fun r => decide (cutoff ≤ r.ts)) := by
  induction log with
  | nil => rfl
  | cons x xs ih =>
    unfold pruneOlderThan at *
    rw [List.filterMap_cons, List.filterMap_cons]
    cases hp : pruneLine cutoff x with
    | none =>
      cases hd : decodeLine x with
      | none => exact ih
      | some r =>
        have hts := pruneLine_none_ts cutoff x hp r hd
        rw [List.filter_cons_of_neg (by simpa using not_le.mpr hts)]
        exact ih
    | some l' =>
      obtain ⟨rfl, hc, h5, hg⟩ := pruneLine_some cutoff x l' hp
      rw [List.filterMap_cons, decodeLine_trimLine]
      cases hd : decodeLine x with
      | none => exact ih
      | some r =>
        have hts : cutoff ≤ r.ts := by rw [decodeLine_ts_eq x r hd]; exact hc
        rw [List.filter_cons_of_pos (by simpa using hts), ih]

/-! ### Relating the history loop to the decoder -/

lemma histEntry_eq (s : Int) (line : Line) :
    histEntry s line = (decodeLine line).filter (fun r => decide (s ≤ r.ts)) := by
  simp only [histEntry, decodeLine, decodeTrimmed]
  set l := trimLine line
  by_cases h5 : l.length < 5
  · rw [if_pos h5, if_pos h5]; rfl
  · rw [if_neg h5, if_neg h5]
    by_cases hg : idxOfFrom l ',' 0 ≤ 0 ∨
        idxOfFrom l ',' ((idxOfFrom l ',' 0) + 1).toNat ≤ idxOfFrom l ',' 0
    · rw [if_pos hg, if_pos hg]; rfl
    · rw [if_neg hg, if_neg hg]
      by_cases hts : atolI (subIC l 0 (idxOfFrom l ',' 0)) < s
      · rw [if_pos hts]
        simp only [Option.filter]
        rw [if_neg (by simpa using not_le.mpr hts)]
      · rw [if_neg hts]
        simp only [Option.filter]
        rw [if_pos (by simpa using not_lt.mp hts)]

lemma filterMap_filter_comm (f : Line → Option Reading) (p : Reading → Bool) (l : Log) :
    l.filterMap (fun a => (f a).filter p) = (l.filterMap f).filter p := by
  induction l with
  | nil => rfl
  | cons x xs ih =>
    rw [List.filterMap_cons, List.filterMap_cons]
    cases hf : f x with
    | none => exact ih
    | some r =>
      cases hp : p r with
      | false =>
        have h1 : Option.filter p (some r) = none := by simp [Option.filter, hp]
        rw [h1, List.filter_cons_of_neg (by simp [hp])]
        exact ih
      | true =>
        have h1 : Option.filter p (some r) = some r := by simp [Option.filter, hp]
        rw [h1, List.filter_cons_of_pos (by simp [hp])]
        exact congrArg (r :: ·) ih

lemma sendHistorySince_eq_filter (s : Int) (log : Log) :
    sendHistorySince s log = (log.filterMap decodeLine).filter (fun r => decide (s ≤ r.ts)) := by
  unfold sendHistorySince
  rw [show (histEntry s) = fun line => (decodeLine line).filter (fun r => decide (s ≤ r.ts)) from
    funext (histEntry_eq s)]
  exact filterMap_filter_comm _ _ _

/-! ### Relating `handleLatest` to the decoder, and the scan fold -/

lemma handleLatest_eq_decode (log : Log) :
    handleLatest log = (if (latestFold log).length < 5 then LatestResult.noData
      else match decodeTrimmed (latestFold log) with
        | none => LatestResult.badFormat
        | some r => LatestResult.ok r) := by
  simp only [handleLatest, decodeTrimmed]
  set ll := latestFold log
  by_cases h5 : ll.length < 5
  · rw [if_pos h5, if_pos h5]
  · rw [if_neg h5, if_neg h5, if_neg h5]
    by_cases hg : idxOfFrom ll ',' 0 ≤ 0 ∨
        idxOfFrom ll ',' ((idxOfFrom ll ',' 0) + 1).toNat ≤ idxOfFrom ll ',' 0
    · rw [if_pos hg, if_pos hg]
    · rw [if_neg hg, if_neg hg]

lemma appendAll_eq (rs : List Reading) (log : Log) :
    appendAll rs log
      = log ++ rs.map (fun r => encodeCenti r.ts (rnd2 r.tempC) (rnd2 r.humidity)) := by
  induction rs generalizing log with
  | nil => simp [appendAll]
  | cons r t ih =>
    simp only [appendAll, List.foldl_cons, List.map_cons] at *
    rw [ih]
    simp [appendReading]

lemma latestStep_eq (acc line : Line) :
    latestStep acc line = if 5 < (trimLine line).length then trimLine line else acc := rfl

lemma latestFold_encodes (rs : List Reading) (hne : rs ≠ []) (acc : Line) :
    List.foldl latestStep acc
        (rs.map (fun r => encodeCenti r.ts (rnd2 r.tempC) (rnd2 r.humidity)))
      = encodeCenti (rs.getLast hne).ts (rnd2 (rs.getLast hne).tempC)
          (rnd2 (rs.getLast hne).humidity) := by
  induction rs generalizing acc with
  | nil => exact absurd rfl hne
  | cons r t ih =>
    cases t with
    | nil =>
      simp only [List.map_cons, List.map_nil, List.foldl_cons, List.foldl_nil]
      rw [latestStep_eq, trimLine_encodeCenti,
        if_pos (by have := length_encodeCenti r.ts (rnd2 r.tempC) (rnd2 r.humidity); omega)]
      rfl
    | cons s u =>
      simp only [List.map_cons, List.foldl_cons]
      rw [List.getLast_cons (by simp : (s :: u) ≠ [])]
      exact ih (by simp) _

lemma latestFold_appendAll (rs : List Reading) (hne : rs ≠ []) :
    latestFold (appendAll rs [])
      = encodeCenti (rs.getLast hne).ts (rnd2 (rs.getLast hne).tempC)
          (rnd2 (rs.getLast hne).humidity) := by
  unfold latestFold
  rw [appendAll_eq, List.nil_append]
  exact latestFold_encodes rs hne []

lemma latestFold_append_junk (log : Log) (junk : Line)
    (hlen : ¬(5 < (trimLine junk).length)) :
    latestFold (log ++ [junk]) = latestFold log := by
  unfold latestFold
  rw [List.foldl_append, List.foldl_cons, List.foldl_nil, latestStep_eq, if_neg hlen]

lemma subIC_encodeCenti_zero (ts ti hi : Int) :
    subIC (encodeCenti ts ti hi) 0 ((intToChars ts).length : Int) = intToChars ts := by
  unfold subIC
  rw [show ((0 : Int)).toNat = 0 by rfl, List.drop_zero,
    show (((intToChars ts).length : Int) - 0).toNat = (intToChars ts).length by omega,
    take_encodeCenti_ts]

/-! ### Rounding to two decimals -/

lemma rnd2_exact (q : ℚ) (k : Int) (h : q = k / 100) : ((rnd2 q : ℤ) : ℚ) / 100 = q := by
  subst h
  unfold rnd2
  rw [div_mul_cancel₀ _ (by norm_num : (100 : ℚ) ≠ 0), round_intCast]

lemma rnd2_le_of_le (q : ℚ) (b : Int) (h : q * 100 ≤ (b : ℚ)) : rnd2 q ≤ b := by
  unfold rnd2
  calc round (q * 100) ≤ round ((b : ℚ)) := by
        rw [round_eq, round_eq]
        exact Int.floor_le_floor (by linarith)
    _ = b := round_intCast b

lemma le_rnd2_of_le (q : ℚ) (b : Int) (h : (b : ℚ) ≤ q * 100) : b ≤ rnd2 q := by
  unfold rnd2
  calc b = round ((b : ℚ)) := (round_intCast b).symm
    _ ≤ round (q * 100) := by
        rw [round_eq, round_eq]
        exact Int.floor_le_floor (by linarith)

lemma pruneLine_encodeCenti (cutoff ts ti hi : Int) :
    pruneLine cutoff (encodeCenti ts ti hi)
      = if cutoff ≤ ts then some (encodeCenti ts ti hi) else none := by
  simp only [pruneLine]
  rw [trimLine_encodeCenti, if_neg (by have := length_encodeCenti ts ti hi; omega),
    idxOfFrom_encodeCenti_zero, if_neg (by have := length_intToChars_pos ts; omega),
    subIC_encodeCenti_zero, atolI_intToChars]

lemma histEntry_encodeCenti (s ts ti hi : Int) :
    histEntry s (encodeCenti ts ti hi)
      = if s ≤ ts then some ⟨ts, (ti : ℚ) / 100, (hi : ℚ) / 100⟩ else none := by
  rw [histEntry_eq, decodeLine_encodeCenti]
  by_cases h : s ≤ ts
  · rw [if_pos h]
    simp only [Option.filter]
    rw [if_pos (by simpa using h)]
  · rw [if_neg h]
    simp only [Option.filter]
    rw [if_neg (by simpa using h)]

/-! ### The claims -/

/-- C1: after `compact(cutoff)` (`pruneOlderThan`), the decodable records
remaining in the log are exactly the previously decodable records with
timestamp at or above the cutoff, in their original order — so every
remaining record satisfies `timestamp >= cutoff`, and compaction never
drops or reorders an in-window record. -/
theorem compact_preserves_in_window_records (cutoff : Int) (log : Log) :
    (pruneOlderThan cutoff log).filterMap decodeLine
        = (log.filterMap decodeLine).filter (fun r => decide (cutoff ≤ r.ts))
      ∧ ∀ line ∈ pruneOlderThan cutoff log, ∀ r, decodeLine line = some r → cutoff ≤ r.ts := by
  refine ⟨filterMap_records_prune cutoff log, ?_⟩
  intro line hline r hr
  obtain ⟨orig, _ho, hp⟩ := List.mem_filterMap.mp hline
  obtain ⟨hEq, hc, _h5, _hg⟩ := pruneLine_some cutoff orig line hp
  subst hEq
  rw [decodeLine_ts_eq _ r hr, trimLine_idem]
  exact hc

/-- Witness for C1 at a concrete two-record log and cutoff 1100. -/
theorem compact_preserves_in_window_records_witness :
    ((pruneOlderThan 1100 [encodeCenti 1000 2000 5000, encodeCenti 1120 2100 4950]).filterMap
          decodeLine
        = (([encodeCenti 1000 2000 5000, encodeCenti 1120 2100 4950] : Log).filterMap
            decodeLine).filter (fun r => decide ((1100 : Int) ≤ r.ts)))
      ∧ (1100 : Int) ≤ (1120 : Int) := by
  have h := compact_preserves_in_window_records 1100
    [encodeCenti 1000 2000 5000, encodeCenti 1120 2100 4950]
  have hm : pruneOlderThan 1100 [encodeCenti 1000 2000 5000, encodeCenti 1120 2100 4950]
      = [encodeCenti 1120 2100 4950] := by
    unfold pruneOlderThan
    rw [List.filterMap_cons_none (by rw [pruneLine_encodeCenti]; rw [if_neg (by norm_num)]),
      List.filterMap_cons_some (by rw [pruneLine_encodeCenti]; rw [if_pos (by norm_num)]),
      List.filterMap_nil]
  exact ⟨h.1, h.2 (encodeCenti 1120 2100 4950) (by rw [hm]; exact List.mem_singleton.mpr rfl)
    ⟨1120, ((2100 : Int) : ℚ) / 100, ((4950 : Int) : ℚ) / 100⟩
    (decodeLine_encodeCenti 1120 2100 4950)⟩

/-- C2: `since(cutoff)` (`sendHistorySince`) equals the order-preserving
filter of the decoded stored sequence to records with timestamp at or
above the cutoff, and every returned record satisfies the bound — no
record below the cutoff is ever returned. -/
theorem since_returns_in_window_in_order (s : Int) (log : Log) :
    sendHistorySince s log = (log.filterMap decodeLine).filter (fun r => decide (s ≤ r.ts))
      ∧ ∀ r ∈ sendHistorySince s log, s ≤ r.ts := by
  refine ⟨sendHistorySince_eq_filter s log, ?_⟩
  intro r hr
  rw [sendHistorySince_eq_filter] at hr
  simpa using List.of_mem_filter hr

/-- Witness for C2 at a concrete two-record log and cutoff 1060. -/
theorem since_returns_in_window_in_order_witness :
    (sendHistorySince 1060 [encodeCenti 1000 2000 5000, encodeCenti 1120 2100 4950]
        = (([encodeCenti 1000 2000 5000, encodeCenti 1120 2100 4950] : Log).filterMap
            decodeLine).filter (fun r => decide ((1060 : Int) ≤ r.ts)))
      ∧ (1060 : Int) ≤ (1120 : Int) := by
  have h := since_returns_in_window_in_order 1060
    [encodeCenti 1000 2000 5000, encodeCenti 1120 2100 4950]
  have hs : sendHistorySince 1060 [encodeCenti 1000 2000 5000, encodeCenti 1120 2100 4950]
      = [⟨1120, ((2100 : Int) : ℚ) / 100, ((4950 : Int) : ℚ) / 100⟩] := by
    unfold sendHistorySince
    rw [List.filterMap_cons_none (by rw [histEntry_encodeCenti]; rw [if_neg (by norm_num)]),
      List.filterMap_cons_some (by rw [histEntry_encodeCenti]; rw [if_pos (by norm_num)]),
      List.filterMap_nil]
  exact ⟨h.1, h.2 ⟨1120, ((2100 : Int) : ℚ) / 100, ((4950 : Int) : ℚ) / 100⟩
    (by rw [hs]; exact List.mem_singleton.mpr rfl)⟩

/-- C3 counterexample: with a log whose trailing line is 7 garbage
characters, `latest()` answers 500 bad_log_format even though an earlier
line decodes successfully — `latest()` does not return the last line of
the log that decodes successfully. -/
theorem latest_not_last_decodable_cx :
    handleLatest [("7,1.00,2.00".toList), ("garbage".toList)] = LatestResult.badFormat
      ∧ decodeLine ("7,1.00,2.00".toList) ≠ none
      ∧ decodeLine ("garbage".toList) = none := by
  refine ⟨by decide, by decide, by decide⟩

/-- C3 (amended): `latest()` after N sequential appends of encodable valid
Readings returns exactly the Nth appended Reading, for any N ≥ 1; the
claim's "more generally" clause fails — `latest()` decodes the last
trimmed line longer than 5 characters whether or not that line decodes,
answering bad_log_format when it does not (see the counterexample). -/
theorem latest_returns_nth_append (rs : List Reading) (hne : rs ≠ [])
    (hval : ∀ r ∈ rs, (∃ k : Int, r.tempC = k / 100) ∧ (∃ k : Int, r.humidity = k / 100)) :
    handleLatest (appendAll rs []) = LatestResult.ok (rs.getLast hne) := by
  obtain ⟨⟨kt, hkt⟩, kh, hkh⟩ := hval (rs.getLast hne) (List.getLast_mem hne)
  rw [handleLatest_eq_decode, latestFold_appendAll rs hne,
    if_neg (by
      have := length_encodeCenti (rs.getLast hne).ts (rnd2 (rs.getLast hne).tempC)
        (rnd2 (rs.getLast hne).humidity)
      omega),
    decodeTrimmed_encodeCenti, rnd2_exact _ kt hkt, rnd2_exact _ kh hkh]

/-- Witness for C3's amended theorem at two concrete appended readings. -/
theorem latest_returns_nth_append_witness :
    handleLatest (appendAll [⟨1000, 20, 50⟩, ⟨1060, 41 / 2, 51⟩] [])
      = LatestResult.ok ⟨1060, 41 / 2, 51⟩ := by
  have h := latest_returns_nth_append [⟨1000, 20, 50⟩, ⟨1060, 41 / 2, 51⟩] (by simp)
    (by
      intro r hr
      rcases List.mem_cons.mp hr with rfl | hr
      · exact ⟨⟨2000, by norm_num⟩, 5000, by norm_num⟩
      · rcases List.mem_singleton.mp hr with rfl
        exact ⟨⟨2050, by norm_num⟩, 5100, by norm_num⟩)
  exact h

/-- C4: for every valid Reading (non-negative timestamp, temperature in
[-40, 125], humidity in [0, 100]) whose channels are exact two-decimal
values, decoding the line `appendReading` encodes for it via the
query-side field split reproduces the Reading exactly — the round-trip is
exact within the stated two-decimal rounding. -/
theorem decode_encode_roundtrip (r : Reading) (hts : 0 ≤ r.ts)
    (htb : -40 ≤ r.tempC ∧ r.tempC ≤ 125) (hhb : 0 ≤ r.humidity ∧ r.humidity ≤ 100)
    (ht2 : ∃ k : Int, r.tempC = k / 100) (hh2 : ∃ k : Int, r.humidity = k / 100) :
    decodeLine (encodeCenti r.ts (rnd2 r.tempC) (rnd2 r.humidity)) = some r := by
  obtain ⟨kt, hkt⟩ := ht2
  obtain ⟨kh, hkh⟩ := hh2
  rw [decodeLine_encodeCenti, rnd2_exact _ kt hkt, rnd2_exact _ kh hkh]

/-- Witness for C4 at the concrete reading (1700000100, 20.25, 50.50). -/
theorem decode_encode_roundtrip_witness :
    decodeLine (encodeCenti (1700000100 : Int) (rnd2 (81 / 4 : ℚ)) (rnd2 (101 / 2 : ℚ)))
      = some ⟨1700000100, 81 / 4, 101 / 2⟩ := by
  exact decode_encode_roundtrip ⟨1700000100, 81 / 4, 101 / 2⟩ (by norm_num)
    ⟨by norm_num, by norm_num⟩ ⟨by norm_num, by norm_num⟩
    ⟨2025, by norm_num⟩ ⟨5050, by norm_num⟩

/-- C5 counterexample: a truncated 7-character trailing line drives
`latest()` to 500 bad_log_format instead of the last valid record, while
`since()` does skip it — so "both queries skip a corrupt/partial trailing
line" fails for `latest()`. -/
theorem latest_fails_on_long_corrupt_tail_cx :
    handleLatest [encodeCenti 1700000001 2025 5050, ("1700001".toList)]
        = LatestResult.badFormat
      ∧ decodeLine ("1700001".toList) = none
      ∧ sendHistorySince 0 [encodeCenti 1700000001 2025 5050, ("1700001".toList)]
          = [⟨1700000001, ((2025 : Int) : ℚ) / 100, ((5050 : Int) : ℚ) / 100⟩] := by
  refine ⟨?_, by decide, ?_⟩
  · have hfold : latestFold [encodeCenti 1700000001 2025 5050, ("1700001".toList)]
        = ("1700001".toList) := by
      unfold latestFold
      rw [List.foldl_cons, List.foldl_cons, List.foldl_nil, latestStep_eq, latestStep_eq,
        if_pos (show 5 < (trimLine ("1700001".toList)).length by decide)]
      decide
    rw [handleLatest_eq_decode, hfold]
    decide
  · unfold sendHistorySince
    rw [List.filterMap_cons_some (by rw [histEntry_encodeCenti]; rw [if_pos (by norm_num)]),
      List.filterMap_cons_none (by
        rw [histEntry_eq, show decodeLine ("1700001".toList) = none from by decide]
        rfl),
      List.filterMap_nil]

/-- C5 (amended): `since()` always skips an undecodable trailing line,
returning exactly the records of the remaining lines; `latest()` skips a
corrupt trailing line only when its trimmed length is at most 5 — a
longer undecodable trailing line instead makes `latest()` answer
bad_log_format (see the counterexample). -/
theorem queries_skip_short_corrupt_tail (s : Int) (log : Log) (junk : Line)
    (hj : decodeLine junk = none) (hlen : (trimLine junk).length ≤ 5) :
    sendHistorySince s (log ++ [junk]) = sendHistorySince s log
      ∧ handleLatest (log ++ [junk]) = handleLatest log := by
  constructor
  · unfold sendHistorySince
    rw [List.filterMap_append]
    have h1 : ([junk] : Log).filterMap (histEntry s) = [] := by
      rw [List.filterMap_cons, histEntry_eq, hj]
      rfl
    rw [h1, List.append_nil]
  · unfold handleLatest
    rw [latestFold_append_junk log junk (by omega)]

/-- Witness for C5's amended theorem: one valid record plus a 3-character
truncated tail. -/
theorem queries_skip_short_corrupt_tail_witness :
    sendHistorySince 0 ([("8,1.00,2.00".toList)] ++ [("17,".toList)])
        = sendHistorySince 0 [("8,1.00,2.00".toList)]
      ∧ handleLatest ([("8,1.00,2.00".toList)] ++ [("17,".toList)])
          = handleLatest [("8,1.00,2.00".toList)] := by
  exact queries_skip_short_corrupt_tail 0 [("8,1.00,2.00".toList)] ("17,".toList)
    (by decide) (by decide)

/-- C6 counterexample: the malformed line "1700000009,77" (no second
comma, so every reader's decode rejects it) passes the compactor's weaker
per-line filter and survives `compact(1700000000)` unchanged — compaction
does not drop every corrupt line. -/
theorem corrupt_line_survives_compaction_cx :
    pruneOlderThan 1700000000 [("1700000009,77".toList)] = [("1700000009,77".toList)]
      ∧ decodeLine ("1700000009,77".toList) = none := by
  decide

/-- C6 (amended): compaction drops exactly the lines failing its own
per-line filter — every surviving line is trimmed, at least 5 characters
long, has its first comma at a positive index, and parses a leading
timestamp at or above the cutoff; a malformed line meeting those checks
(for example one lacking the second comma) survives the rewrite, so the
log is not guaranteed corruption-free after compaction. -/
theorem compact_survivors_pass_prune_filter (cutoff : Int) (log : Log) :
    ∀ line ∈ pruneOlderThan cutoff log,
      ¬(line.length < 5) ∧ 0 < idxOfFrom line ',' 0
        ∧ cutoff ≤ atolI (subIC line 0 (idxOfFrom line ',' 0))
        ∧ trimLine line = line := by
  intro line hline
  obtain ⟨orig, _ho, hp⟩ := List.mem_filterMap.mp hline
  obtain ⟨hEq, hc, h5, hg⟩ := pruneLine_some cutoff orig line hp
  subst hEq
  exact ⟨h5, not_le.mp hg, hc, trimLine_idem orig⟩

/-- Witness for C6's amended theorem on a surviving concrete line. -/
theorem compact_survivors_pass_prune_filter_witness :
    ¬((("1120,21.00,49.50".toList) : Line).length < 5)
      ∧ 0 < idxOfFrom ("1120,21.00,49.50".toList) ',' 0
      ∧ (1100 : Int) ≤ atolI (subIC ("1120,21.00,49.50".toList) 0
          (idxOfFrom ("1120,21.00,49.50".toList) ',' 0))
      ∧ trimLine ("1120,21.00,49.50".toList) = ("1120,21.00,49.50".toList) := by
  exact compact_survivors_pass_prune_filter 1100 [("1120,21.00,49.50".toList)]
    ("1120,21.00,49.50".toList) (by decide)

/-- C7: the sampling path either leaves the log unchanged or appends the
encoding of one Reading whose channels were NaN-free and in range
(temperature in [-40, 125], humidity in [0, 100], preserved under the
two-decimal rounding) and whose timestamp exceeds the sanity epoch floor
— out-of-range, undefined, or invalid-time samples are never persisted. -/
theorem sample_persists_only_valid_readings (tv hv : SensorVal) (now : Int) (log : Log) :
    sampleStep tv hv now log = log ∨
      ∃ t h : ℚ, tv = SensorVal.val t ∧ hv = SensorVal.val h
        ∧ sampleStep tv hv now log = log ++ [encodeCenti now (rnd2 t) (rnd2 h)]
        ∧ 1700000000 < now ∧ -40 ≤ t ∧ t ≤ 125 ∧ 0 ≤ h ∧ h ≤ 100
        ∧ -4000 ≤ rnd2 t ∧ rnd2 t ≤ 12500 ∧ 0 ≤ rnd2 h ∧ rnd2 h ≤ 10000 := by
  cases tv with
  | nan => left; rfl
  | val t =>
    cases hv with
    | nan => left; rfl
    | val h =>
      have hred : sampleStep (SensorVal.val t) (SensorVal.val h) now log
          = if t < -40 ∨ 125 < t ∨ h < 0 ∨ 100 < h then log
            else if 1700000000 < now then appendReading now t h log else log := rfl
      rw [hred]
      by_cases hb : t < -40 ∨ 125 < t ∨ h < 0 ∨ 100 < h
      · left; rw [if_pos hb]
      · push_neg at hb
        obtain ⟨h1, h2, h3, h4⟩ := hb
        by_cases hn : 1700000000 < now
        · right
          refine ⟨t, h, rfl, rfl, ?_, hn, h1, h2, h3, h4, ?_, ?_, ?_, ?_⟩
          · rw [if_neg (by push_neg; exact ⟨h1, h2, h3, h4⟩), if_pos hn]
            rfl
          · exact le_rnd2_of_le t (-4000) (by push_cast; linarith)
          · exact rnd2_le_of_le t 12500 (by push_cast; linarith)
          · exact le_rnd2_of_le h 0 (by push_cast; linarith)
          · exact rnd2_le_of_le h 10000 (by push_cast; linarith)
        · left
          rw [if_neg (by push_neg; exact ⟨h1, h2, h3, h4⟩), if_neg hn]

/-- C8: the cutoff resolution of `handleHistory` agrees with the spec's
precedence rule on every input — an explicit `since` is used as-is; else
`days` (replaced by 7 when at most 0) times one day is subtracted from a
valid now; else the retention window is subtracted; and epoch 0 results
whenever now is invalid in the relative cases. -/
theorem history_cutoff_resolution (sa da : Option Int) (now : Int) :
    resolveSince sa da now = resolveSinceSpec sa da now := by
  cases sa with
  | some s => rfl
  | none =>
    cases da with
    | some d => rfl
    | none => rfl

/-- C9: `maybePrune` leaves the log untouched whenever the clock is not
yet valid, as does the startup prune; when the clock is valid the startup
prune (run once from `setup()`) compacts at `now - KEEP_SECONDS`, and an
elapsed `maybePrune` interval compacts at the same cutoff. -/
theorem prune_gated_by_clock (ms : Nat) (now : Int) (st : PruneState) (log0 : Log) :
    (now ≤ 1700000000 → (maybePrune ms now st).log = st.log)
      ∧ (now ≤ 1700000000 → setupPrune now log0 = log0)
      ∧ (1700000000 < now → setupPrune now log0 = pruneOlderThan (now - KEEP_SECONDS) log0)
      ∧ (1700000000 < now → PRUNE_EVERY_MS ≤ usub32 ms st.lastPruneMs →
          (maybePrune ms now st).log = pruneOlderThan (now - KEEP_SECONDS) st.log) := by
  refine ⟨?_, ?_, ?_, ?_⟩
  · intro hn
    unfold maybePrune
    by_cases he : usub32 ms st.lastPruneMs < PRUNE_EVERY_MS
    · rw [if_pos he]
    · rw [if_neg he, if_pos hn]
  · intro hn
    unfold setupPrune
    rw [if_neg (not_lt.mpr hn)]
  · intro hn
    unfold setupPrune
    rw [if_pos hn]
  · intro hn he
    unfold maybePrune
    rw [if_neg (not_lt.mpr he), if_neg (not_le.mpr hn)]

/-- Witness for C9 at concrete clock and timer values. -/
theorem prune_gated_by_clock_witness :
    ((maybePrune 0 5 ⟨0, [("x".toList)]⟩).log = [("x".toList)])
      ∧ setupPrune 5 [("x".toList)] = [("x".toList)]
      ∧ setupPrune 1800000000 [("x".toList)]
          = pruneOlderThan (1800000000 - KEEP_SECONDS) [("x".toList)]
      ∧ (maybePrune PRUNE_EVERY_MS 1800000000 ⟨0, [("x".toList)]⟩).log
          = pruneOlderThan (1800000000 - KEEP_SECONDS) [("x".toList)] := by
  have h1 := prune_gated_by_clock 0 5 ⟨0, [("x".toList)]⟩ [("x".toList)]
  have h2 := prune_gated_by_clock PRUNE_EVERY_MS 1800000000 ⟨0, [("x".toList)]⟩ [("x".toList)]
  exact ⟨h1.1 (by norm_num), h1.2.1 (by norm_num), h2.2.2.1 (by norm_num),
    h2.2.2.2 (by norm_num) (by decide)⟩

/-- C10: every line `appendReading` writes for a valid Reading has no
embedded newline (so the printf's trailing newline terminates exactly one
record line), contains exactly two commas, is at least 11 characters
long, survives trimming unchanged, exceeds the `latest()` length filter,
decodes under the shared query-side field split, and is kept by the
compactor's filter at any cutoff at or below its timestamp — no reader
misclassifies a written record as corrupt. -/
theorem encoded_line_passes_all_readers (ts ti hi : Int) (hts : 0 ≤ ts)
    (ht1 : -4000 ≤ ti) (ht2 : ti ≤ 12500) (hh1 : 0 ≤ hi) (hh2 : hi ≤ 10000) :
    '\n' ∉ encodeCenti ts ti hi
      ∧ (encodeCenti ts ti hi).count ',' = 2
      ∧ 11 ≤ (encodeCenti ts ti hi).length
      ∧ trimLine (encodeCenti ts ti hi) = encodeCenti ts ti hi
      ∧ 5 < (encodeCenti ts ti hi).length
      ∧ decodeTrimmed (encodeCenti ts ti hi) = some ⟨ts, (ti : ℚ) / 100, (hi : ℚ) / 100⟩
      ∧ ∀ cutoff : Int, cutoff ≤ ts →
          pruneLine cutoff (encodeCenti ts ti hi) = some (encodeCenti ts ti hi) := by
  refine ⟨?_, ?_, length_encodeCenti ts ti hi, trimLine_encodeCenti ts ti hi,
    by have := length_encodeCenti ts ti hi; omega, decodeTrimmed_encodeCenti ts ti hi, ?_⟩
  · intro hmem
    have h1 := not_ws_encodeCenti ts ti hi '\n' hmem
    exact absurd h1 (by decide)
  · have hA : (intToChars ts).count ',' = 0 :=
      List.count_eq_zero.mpr (fun hmem => ne_comma_intToChars ts ',' hmem rfl)
    have hB : (f2 ti).count ',' = 0 :=
      List.count_eq_zero.mpr (fun hmem => ne_comma_f2 ti ',' hmem rfl)
    have hC : (f2 hi).count ',' = 0 :=
      List.count_eq_zero.mpr (fun hmem => ne_comma_f2 hi ',' hmem rfl)
    unfold encodeCenti
    simp [List.count_append, List.count_cons, hA, hB, hC]
  · intro cutoff hcut
    simp only [pruneLine]
    rw [trimLine_encodeCenti,
      if_neg (by have := length_encodeCenti ts ti hi; omega),
      idxOfFrom_encodeCenti_zero,
      if_neg (by have := length_intToChars_pos ts; omega),
      subIC_encodeCenti_zero, atolI_intToChars, if_pos hcut]

/-- Witness for C10 at the concrete encoded record (1000, 20.00, 50.00). -/
theorem encoded_line_passes_all_readers_witness :
    '\n' ∉ encodeCenti 1000 2000 5000
      ∧ (encodeCenti 1000 2000 5000).count ',' = 2
      ∧ 11 ≤ (encodeCenti 1000 2000 5000).length
      ∧ trimLine (encodeCenti 1000 2000 5000) = encodeCenti 1000 2000 5000
      ∧ 5 < (encodeCenti 1000 2000 5000).length
      ∧ decodeTrimmed (encodeCenti 1000 2000 5000)
          = some ⟨1000, ((2000 : Int) : ℚ) / 100, ((5000 : Int) : ℚ) / 100⟩
      ∧ pruneLine 900 (encodeCenti 1000 2000 5000) = some (encodeCenti 1000 2000 5000) := by
  have h := encoded_line_passes_all_readers 1000 2000 5000 (by norm_num) (by norm_num)
    (by norm_num) (by norm_num) (by norm_num)
  exact ⟨h.1, h.2.1, h.2.2.1, h.2.2.2.1, h.2.2.2.2.1, h.2.2.2.2.2.1,
    h.2.2.2.2.2.2 900 (by norm_num)⟩

end AhtLog
